import Mathlib

/-!
# Personal-Web `script.js`: particle field animator and type writer

A shallow embedding of the classes `ParticleSystem`, `TypeWriter` and of the
`DOMContentLoaded` initialisation of `script.js`.

Conventions of the embedding.

* JavaScript numbers are modelled by exact rationals `ℚ`.  `Math.sqrt` is a
  parameter `sqrt : ℚ → ℚ` of every function that calls it, so every theorem
  holds for every interpretation of the square root; the concrete evaluations
  instantiate it with `Rat.sqrt`, applied to squares of rationals only.
* `Math.random()` is a stream `rand : ℕ → ℚ`; the `k`-th call returns `rand k`.
* `window.innerWidth` and `window.innerHeight` are natural numbers (CSS pixels).
* The canvas is modelled by the list of drawing events a frame issues.
-/

namespace PersonalWeb

/-! ## Data model -/

/-- The object literal pushed by `ParticleSystem.init` (lines 26-33).  `color`
holds the hue `h` of the string `hsl(h, 100%, 60%)`. -/
structure Particle where
  x : ℚ
  y : ℚ
  vx : ℚ
  vy : ℚ
  radius : ℚ
  color : ℚ
deriving DecidableEq, Repr

/-- The field `this.mouse` (line 11). -/
structure Mouse where
  x : ℚ
  y : ℚ
deriving DecidableEq, Repr

/-- The state of a `ParticleSystem` instance: `canvas.width`, `canvas.height`,
`this.particles`, `this.mouse`. -/
structure ParticleSystem where
  width : ℚ
  height : ℚ
  particles : List Particle
  mouse : Mouse
deriving DecidableEq, Repr

/-- One drawing step of a frame.  `fillRect` is lines 46-47, `disc` is lines
68-71 (`arc` of the given centre and radius, filled with the particle colour),
and `pair` is one iteration of the inner loop of lines 74-88: the indices
`i`, `j`, the coordinates read from `p` and `p2`, the computed `dist`, and
`stroke = some a` when the line from `(x1, y1)` to `(x2, y2)` is stroked with
style `rgba(0, 240, 255, a)` and `none` when nothing is drawn. -/
inductive Event where
  | fillRect (w h : ℚ)
  | disc (x y r color : ℚ)
  | pair (i j : ℕ) (x1 y1 x2 y2 dist : ℚ) (stroke : Option ℚ)
deriving DecidableEq, Repr

/-! ## `ParticleSystem`: construction -/

/-- The method `resize` (lines 18-21). -/
def ParticleSystem.resize (innerWidth innerHeight : ℕ) (s : ParticleSystem) :
    ParticleSystem :=
  { s with width := (innerWidth : ℚ), height := (innerHeight : ℚ) }

/-- The `mousemove` listener installed by `setupEvents` (lines 39-42). -/
def ParticleSystem.mousemove (clientX clientY : ℚ) (s : ParticleSystem) :
    ParticleSystem :=
  { s with mouse := { x := clientX, y := clientY } }

/-- The object literal of lines 26-33; its six calls of `Math.random()` are the
draws `k`, ..., `k + 5` of the stream. -/
def newParticle (rand : ℕ → ℚ) (k : ℕ) (s : ParticleSystem) : Particle :=
  { x := rand k * s.width
    y := rand (k + 1) * s.height
    vx := (rand (k + 2) - 0.5) * 0.5
    vy := (rand (k + 3) - 0.5) * 0.5
    radius := rand (k + 4) * 2 + 1
    color := rand (k + 5) * 60 + 180 }

/-- The `for` loop of lines 25-34, entered with loop variable `i`. -/
def ParticleSystem.initLoop (rand : ℕ → ℚ) (count : ℤ) (i : ℕ)
    (s : ParticleSystem) : ParticleSystem :=
  if (i : ℤ) < count then
    ParticleSystem.initLoop rand count (i + 1)
      { s with particles := s.particles ++ [newParticle rand (6 * i) s] }
  else s
termination_by (count - i).toNat
decreasing_by omega

/-- The method `init` (lines 23-35). -/
def ParticleSystem.init (innerWidth : ℕ) (rand : ℕ → ℚ) (s : ParticleSystem) :
    ParticleSystem :=
  let count : ℤ := min 100 ⌊(innerWidth : ℚ) / 10⌋
  ParticleSystem.initLoop rand count 0 s

/-- The state built by the constructor (lines 10-13) before the first frame:
an empty particle array, the mouse at the origin, then `resize` and `init`. -/
def ParticleSystem.create (innerWidth innerHeight : ℕ) (rand : ℕ → ℚ) :
    ParticleSystem :=
  ParticleSystem.init innerWidth rand
    (ParticleSystem.resize innerWidth innerHeight
      { width := 0, height := 0, particles := [], mouse := { x := 0, y := 0 } })

/-! ## `ParticleSystem`: the frame step -/

/-- Mouse interaction, lines 51-57. -/
def attract (sqrt : ℚ → ℚ) (mouse : Mouse) (p : Particle) : Particle :=
  let dx := mouse.x - p.x
  let dy := mouse.y - p.y
  let dist := sqrt (dx * dx + dy * dy)
  if dist < 150 then
    { p with vx := p.vx + dx * 0.00005, vy := p.vy + dy * 0.00005 }
  else p

/-- Update position, lines 60-61.  The sums are exact; a double rounds them
(a tiny `vx` can leave `x` as it was), so the boundary test is always stated
on the integrated position and never on the sign of the velocity. -/
def integrate (p : Particle) : Particle :=
  { p with x := p.x + p.vx, y := p.y + p.vy }

/-- Boundaries, lines 64-65. -/
def reflect (width height : ℚ) (p : Particle) : Particle :=
  let p1 := if p.x < 0 ∨ p.x > width then { p with vx := p.vx * -1 } else p
  if p1.y < 0 ∨ p1.y > height then { p1 with vy := p1.vy * -1 } else p1

/-- Lines 51-65: everything the `forEach` callback does to its particle `p`. -/
def update (sqrt : ℚ → ℚ) (width height : ℚ) (mouse : Mouse) (p : Particle) :
    Particle :=
  reflect width height (integrate (attract sqrt mouse p))

/-- One iteration of the inner loop body, lines 75-87, for `p` (index `i`)
and `p2` (index `j`). -/
def connectPair (sqrt : ℚ → ℚ) (i j : ℕ) (p p2 : Particle) : Event :=
  let dx := p.x - p2.x
  let dy := p.y - p2.y
  let dist := sqrt (dx * dx + dy * dy)
  Event.pair i j p.x p.y p2.x p2.y dist
    (if dist < 100 then some (1 - dist / 100) else none)

/-- The inner loop of lines 74-88, entered with loop variable `j`; `ps` is
`this.particles` as it stands during the callback for index `i`. -/
def connect (sqrt : ℚ → ℚ) (ps : List Particle) (i : ℕ) (p : Particle)
    (j : ℕ) : List Event :=
  if h : j < ps.length then
    connectPair sqrt i j p (ps.get ⟨j, h⟩) :: connect sqrt ps i p (j + 1)
  else []
termination_by ps.length - j

/-- The `forEach` of lines 49-89 from index `i` on.  The callback mutates the
object stored at index `i` in place (`ps.set i p`) and then runs the inner
loop on the array holding the mutated object. -/
def drawLoop (sqrt : ℚ → ℚ) (width height : ℚ) (mouse : Mouse) (i : ℕ)
    (ps : List Particle) : List Particle × List Event :=
  if h : i < ps.length then
    let p := update sqrt width height mouse (ps.get ⟨i, h⟩)
    let ps1 := ps.set i p
    let r := drawLoop sqrt width height mouse (i + 1) ps1
    (r.1, Event.disc p.x p.y p.radius p.color :: (connect sqrt ps1 i p (i + 1) ++ r.2))
  else (ps, [])
termination_by ps.length - i
decreasing_by simp only [List.length_set]; omega

/-- The method `draw` (lines 45-90): the state after the frame and the
drawing events of the frame, in order. -/
def ParticleSystem.draw (sqrt : ℚ → ℚ) (s : ParticleSystem) :
    ParticleSystem × List Event :=
  let r := drawLoop sqrt s.width s.height s.mouse 0 s.particles
  ({ s with particles := r.1 }, Event.fillRect s.width s.height :: r.2)

/-- The index pairs on which a list of events ran the proximity test. -/
def testedPairs : List Event → List (ℕ × ℕ)
  | [] => []
  | Event.pair i j _ _ _ _ _ _ :: es => (i, j) :: testedPairs es
  | _ :: es => testedPairs es

/-- The square root is never negative. -/
def SqrtNonneg (sqrt : ℚ → ℚ) : Prop := ∀ a, 0 ≤ sqrt a

/-- The square root is exact on squares of non-negative numbers. -/
def SqrtExact (sqrt : ℚ → ℚ) : Prop := ∀ a, 0 ≤ a → sqrt (a * a) = a

/-- Euclidean distance between two points, computed with `sqrt`. -/
def euclid (sqrt : ℚ → ℚ) (x1 y1 x2 y2 : ℚ) : ℚ :=
  sqrt ((x1 - x2) * (x1 - x2) + (y1 - y2) * (y1 - y2))

/-! ## `TypeWriter` -/

/-- The state of a `TypeWriter` instance (lines 137-142).  A JavaScript string
is the list of its code units; `textContent` is `this.element.textContent`. -/
structure TypeWriter where
  texts : List (List Char)
  speed : ℚ
  textIndex : ℕ
  charIndex : ℤ
  isDeleting : Bool
  textContent : List Char
deriving DecidableEq, Repr

/-- The call `current.substring(0, stop)`: a negative `stop` counts as `0` and
a `stop` past the end as the length. -/
def substring (current : List Char) (stop : ℤ) : List Char :=
  current.take stop.toNat

/-- The fields set by the constructor (lines 137-142), before its call of
`type()`; `content` is the text the element shows at that time. -/
def TypeWriter.initial (texts : List (List Char)) (speed : ℚ)
    (content : List Char) : TypeWriter :=
  { texts := texts, speed := speed, textIndex := 0, charIndex := 0,
    isDeleting := false, textContent := content }

/-- The method `type` (lines 146-173): the state it leaves and the delay it
passes to `setTimeout`.  The result is `none` when `current` is `undefined`,
where `current.substring` raises a `TypeError`. -/
def TypeWriter.type (t : TypeWriter) : Option (TypeWriter × ℚ) :=
  match t.texts[t.textIndex]? with
  | none => none
  | some current =>
    let t1 : TypeWriter :=
      if t.isDeleting then
        { t with textContent := substring current (t.charIndex - 1),
                 charIndex := t.charIndex - 1 }
      else
        { t with textContent := substring current (t.charIndex + 1),
                 charIndex := t.charIndex + 1 }
    let timeout : ℚ := if t1.isDeleting then t1.speed / 2 else t1.speed
    if ¬ t1.isDeleting ∧ t1.charIndex = (current.length : ℤ) then
      some ({ t1 with isDeleting := true }, 2000)
    else if t1.isDeleting ∧ t1.charIndex = 0 then
      some ({ t1 with isDeleting := false,
                      textIndex := (t1.textIndex + 1) % t1.texts.length }, 500)
    else some (t1, timeout)

/-- The state after `n` successive calls of `type()`, the chain that the
constructor starts and `setTimeout` continues. -/
def TypeWriter.run : ℕ → TypeWriter → Option TypeWriter
  | 0, t => some t
  | n + 1, t => (TypeWriter.run n t).bind fun u => (TypeWriter.type u).map Prod.fst

/-! ## The `DOMContentLoaded` initialisation -/

/-- The results of the element lookups of the script: `true` when the lookup
returns an element, `false` when it returns `null`. -/
structure Page where
  particles : Bool
  cursorTrail : Bool
  heroBg : Bool
  contactForm : Bool
  nav : Bool
  typingText : Bool
deriving DecidableEq, Repr

/-- The classes instantiated by the `DOMContentLoaded` listener. -/
inductive Component where
  | particleSystem | cursor | scrollAnimations | tiltEffect | parallax
  | smoothScroll | formHandler | rippleEffect | navScroll | typeWriter
deriving DecidableEq, Repr

/-- An uncaught `TypeError`, raised at the given source line by a property
access on `null`. -/
inductive JsError where
  | typeError (line : ℕ)
deriving DecidableEq, Repr

/-- Running the constructor of a component.  `ParticleSystem` reads
`this.canvas.getContext` at line 9 and `Cursor` reads `this.cursor.style` at
line 127 (in `animate`, called by the constructor), both without a check; the
other constructors do not dereference a looked-up element (`FormHandler`
tests `this.form` at line 271). -/
def construct (page : Page) : Component → Except JsError Unit
  | Component.particleSystem =>
    if page.particles then Except.ok () else Except.error (JsError.typeError 9)
  | Component.cursor =>
    if page.cursorTrail then Except.ok () else Except.error (JsError.typeError 127)
  | _ => Except.ok ()

/-- Running constructors in sequence: the components constructed, and the
error that stopped the sequence, if any. -/
def constructAll (page : Page) : List Component → List Component × Option JsError
  | [] => ([], none)
  | c :: cs =>
    match construct page c with
    | Except.error e => ([], some e)
    | Except.ok _ =>
      let r := constructAll page cs
      (c :: r.1, r.2)

/-- The `DOMContentLoaded` listener, lines 364-385. -/
def domContentLoaded (page : Page) : List Component × Option JsError :=
  constructAll page
    ([Component.particleSystem, Component.cursor, Component.scrollAnimations,
      Component.tiltEffect, Component.parallax, Component.smoothScroll,
      Component.formHandler, Component.rippleEffect, Component.navScroll]
      ++ (if page.typingText then [Component.typeWriter] else []))

/-- The style written by the scroll listener of `NavScroll` (lines 347-359):
`true` for the branch `currentScroll > 100`.  It reads `this.nav.style`
without a check. -/
def NavScroll.onScroll (page : Page) (pageYOffset : ℚ) : Except JsError Bool :=
  if page.nav then Except.ok (decide (pageYOffset > 100))
  else Except.error (JsError.typeError (if pageYOffset > 100 then 351 else 354))

/-- Whether `FormHandler` installs its `submit` listener (line 271). -/
def FormHandler.listens (page : Page) : Bool := page.contactForm

/-- The `submit` listener of `FormHandler` (lines 275-284); it runs only when
installed, and then `this.form` is an element. -/
def FormHandler.onSubmit (page : Page) : Option (Except JsError Unit) :=
  if FormHandler.listens page then some (Except.ok ()) else none

/-- The invariant of the type writer over `texts`: the phrase list is
`texts`, `textIndex` selects a phrase `cur`, `charIndex` lies between 0 and
the length of `cur`, a deleting state has at least one character left and a
typing state has at least one character to go. -/
def TypeWriter.Valid (texts : List (List Char)) (t : TypeWriter) : Prop :=
  t.texts = texts ∧ ∃ cur, texts[t.textIndex]? = some cur
    ∧ 0 ≤ t.charIndex ∧ t.charIndex ≤ cur.length
    ∧ (t.isDeleting = true → 1 ≤ t.charIndex)
    ∧ (t.isDeleting = false → t.charIndex < cur.length)

/-! ## Concrete inputs of the other components -/

/-- The phrases passed to the type writer of the hero section (lines 379-384). -/
def heroTexts : List (List Char) :=
  ["Creative Developer".toList, "UI/UX Designer".toList,
   "Digital Artist".toList, "Innovation Maker".toList]

/-- A page on which every lookup finds its element. -/
def pageFull : Page :=
  { particles := true, cursorTrail := true, heroBg := true,
    contactForm := true, nav := true, typingText := true }

/-- A page without the element `#particles`. -/
def pageNoCanvas : Page := { pageFull with particles := false }

/-- A page without the element `#contactForm`. -/
def pageNoForm : Page := { pageFull with contactForm := false }

/-- A page without the element `.nav`. -/
def pageNoNav : Page := { pageFull with nav := false }

/-! ## Concrete fields used in the evaluations -/

/-- A resting particle at `(0, 0)`. -/
def particleOrigin : Particle :=
  { x := 0, y := 0, vx := 0, vy := 0, radius := 1, color := 180 }

/-- A resting particle at `(50, 0)`. -/
def particleFifty : Particle :=
  { x := 50, y := 0, vx := 0, vy := 0, radius := 1, color := 180 }

/-- Two resting particles at `(0, 0)` and `(50, 0)`, the cursor at `(500, 0)`. -/
def fieldEdge : ParticleSystem :=
  { width := 1000, height := 1000, mouse := { x := 500, y := 0 },
    particles := [particleOrigin, particleFifty] }

/-- A particle at `(100, 0)` with `vx = 0.125`. -/
def particleMouse : Particle :=
  { x := 100, y := 0, vx := 0.125, vy := 0, radius := 2, color := 200 }

/-- One particle at `(100, 0)`, the cursor at `(0, 0)`. -/
def fieldMouse : ParticleSystem :=
  { width := 1000, height := 1000, mouse := { x := 0, y := 0 },
    particles := [particleMouse] }

/-- A particle at `(1001, 50)` with `vx = 0.3`. -/
def particleCross : Particle :=
  { x := 1001, y := 50, vx := 0.3, vy := 0, radius := 2, color := 200 }

/-- One particle one unit right of a canvas of width 1000, the cursor at
`(0, 50)`. -/
def fieldCross : ParticleSystem :=
  { width := 1000, height := 1000, mouse := { x := 0, y := 50 },
    particles := [particleCross] }

/-- A particle at `(0, 500)` moving right with `vx = 0.25`. -/
def particleZero : Particle :=
  { x := 0, y := 500, vx := 0.25, vy := 0, radius := 1, color := 180 }

/-- One particle on the left bound `x = 0`, the cursor at `(500, 500)`. -/
def fieldZero : ParticleSystem :=
  { width := 1000, height := 1000, mouse := { x := 500, y := 500 },
    particles := [particleZero] }

/-- A resting particle at `(100, 50)`. -/
def particleRest : Particle :=
  { x := 100, y := 50, vx := 0, vy := 0, radius := 1, color := 180 }

/-- A particle at `(199.875, 50)` moving right by `0.125` a frame. -/
def particleLeaving : Particle :=
  { x := 199.875, y := 50, vx := 0.125, vy := 0, radius := 1, color := 180 }

/-- A particle at `(200, 50)` moving left by `0.125` a frame. -/
def particleEntering : Particle :=
  { x := 200, y := 50, vx := -0.125, vy := 0, radius := 1, color := 180 }

/-- The resting particle and the leaving one, the cursor at `(1000, 50)`. -/
def fieldLeaving : ParticleSystem :=
  { width := 2000, height := 2000, mouse := { x := 1000, y := 50 },
    particles := [particleRest, particleLeaving] }

/-- The resting particle and the entering one, the cursor at `(1000, 50)`. -/
def fieldEntering : ParticleSystem :=
  { width := 2000, height := 2000, mouse := { x := 1000, y := 50 },
    particles := [particleRest, particleEntering] }

/-! ## Construction: lemmas -/

theorem initLoop_length (rand : ℕ → ℚ) (count : ℤ) :
    ∀ (n i : ℕ) (s : ParticleSystem), (count - i).toNat = n →
      (ParticleSystem.initLoop rand count i s).particles.length
        = s.particles.length + n := by
  intro n
  induction n with
  | zero =>
    intro i s h
    rw [ParticleSystem.initLoop]
    have : ¬ ((i : ℤ) < count) := by omega
    simp [this]
  | succ n ih =>
    intro i s h
    rw [ParticleSystem.initLoop]
    have hlt : (i : ℤ) < count := by omega
    simp only [hlt, if_true]
    rw [ih (i + 1) _ (by push_cast; omega)]
    simp
    omega

theorem floor_div_ten (W : ℕ) : ⌊(W : ℚ) / 10⌋ = ((W / 10 : ℕ) : ℤ) := by
  have h := Rat.floor_intCast_div_natCast (W : ℤ) 10
  simpa using h

/-- C1. `ParticleSystem.init`: for every viewport width `W` the constructor
creates exactly `min 100 (W / 10)` particles (natural-number division, i.e. the
floor of `W / 10`), so never more than 100; width 1000 gives 100 particles and
width 500 gives 50. -/
theorem C1_particle_count (W H : ℕ) (rand : ℕ → ℚ) :
    (ParticleSystem.create W H rand).particles.length = min 100 (W / 10)
    ∧ (ParticleSystem.create W H rand).particles.length ≤ 100
    ∧ (ParticleSystem.create 1000 H rand).particles.length = 100
    ∧ (ParticleSystem.create 500 H rand).particles.length = 50 := by
  have key : ∀ V : ℕ,
      (ParticleSystem.create V H rand).particles.length = min 100 (V / 10) := by
    intro V
    unfold ParticleSystem.create ParticleSystem.init
    simp only []
    rw [initLoop_length rand _ _ 0 _ rfl, floor_div_ten]
    simp [ParticleSystem.resize]
    omega
  refine ⟨key W, ?_, ?_, ?_⟩
  · rw [key]; exact min_le_left _ _
  · rw [key]; decide
  · rw [key]; decide

/-! ## The frame step: lemmas -/

theorem connect_lt (sqrt : ℚ → ℚ) (ps : List Particle) (i : ℕ) (p : Particle)
    (j : ℕ) (h : j < ps.length) :
    connect sqrt ps i p j
      = connectPair sqrt i j p (ps.get ⟨j, h⟩) :: connect sqrt ps i p (j + 1) := by
  rw [connect]
  simp [h]

theorem connect_ge (sqrt : ℚ → ℚ) (ps : List Particle) (i : ℕ) (p : Particle)
    (j : ℕ) (h : ps.length ≤ j) : connect sqrt ps i p j = [] := by
  rw [connect]
  simp [Nat.not_lt.mpr h]

theorem drawLoop_lt (sqrt : ℚ → ℚ) (w h : ℚ) (m : Mouse) (i : ℕ)
    (ps : List Particle) (hi : i < ps.length) :
    drawLoop sqrt w h m i ps
      = ((drawLoop sqrt w h m (i + 1)
            (ps.set i (update sqrt w h m (ps.get ⟨i, hi⟩)))).1,
         Event.disc (update sqrt w h m (ps.get ⟨i, hi⟩)).x
             (update sqrt w h m (ps.get ⟨i, hi⟩)).y
             (update sqrt w h m (ps.get ⟨i, hi⟩)).radius
             (update sqrt w h m (ps.get ⟨i, hi⟩)).color
           :: (connect sqrt (ps.set i (update sqrt w h m (ps.get ⟨i, hi⟩))) i
                 (update sqrt w h m (ps.get ⟨i, hi⟩)) (i + 1)
               ++ (drawLoop sqrt w h m (i + 1)
                    (ps.set i (update sqrt w h m (ps.get ⟨i, hi⟩)))).2)) := by
  rw [drawLoop]
  simp [hi]

theorem drawLoop_ge (sqrt : ℚ → ℚ) (w h : ℚ) (m : Mouse) (i : ℕ)
    (ps : List Particle) (hi : ps.length ≤ i) :
    drawLoop sqrt w h m i ps = (ps, []) := by
  rw [drawLoop]
  simp [Nat.not_lt.mpr hi]

/-- After the loop from index `i`, the entries below `i` are untouched and the
entries from `i` on are updated. -/
theorem drawLoop_getElem (sqrt : ℚ → ℚ) (w h : ℚ) (m : Mouse) :
    ∀ (n i : ℕ) (ps : List Particle), ps.length - i = n → ∀ k : ℕ,
      (drawLoop sqrt w h m i ps).1[k]?
        = if k < i then ps[k]? else (ps[k]?).map (update sqrt w h m) := by
  intro n
  induction n with
  | zero =>
    intro i ps hn k
    rw [drawLoop_ge sqrt w h m i ps (by omega)]
    by_cases hk : k < i
    · simp [hk]
    · have : ps[k]? = none := List.getElem?_eq_none (by omega)
      simp [hk, this]
  | succ n ih =>
    intro i ps hn k
    have hi : i < ps.length := by omega
    rw [drawLoop_lt sqrt w h m i ps hi]
    simp only []
    rw [ih (i + 1) _ (by simp only [List.length_set]; omega) k, List.getElem?_set]
    by_cases hki : i = k
    · subst hki
      simp [hi]
    · by_cases hk : k < i
      · have : k < i + 1 := by omega
        simp [hki, hk, this]
      · have : ¬ k < i + 1 := by omega
        simp [hki, hk, this]

theorem drawLoop_particles (sqrt : ℚ → ℚ) (w h : ℚ) (m : Mouse)
    (ps : List Particle) :
    (drawLoop sqrt w h m 0 ps).1 = ps.map (update sqrt w h m) := by
  apply List.ext_getElem?
  intro k
  rw [drawLoop_getElem sqrt w h m _ 0 ps rfl k]
  simp

theorem draw_particles (sqrt : ℚ → ℚ) (s : ParticleSystem) :
    (ParticleSystem.draw sqrt s).1.particles
      = s.particles.map (update sqrt s.width s.height s.mouse) := by
  simp [ParticleSystem.draw, drawLoop_particles]

/-- Every event of the inner loop is the test of `p` against an entry of the
array at an index from `j` on. -/
theorem mem_connect (sqrt : ℚ → ℚ) (ps : List Particle) (i : ℕ) (p : Particle)
    (e : Event) :
    ∀ (n j : ℕ), ps.length - j = n → e ∈ connect sqrt ps i p j →
      ∃ (b : ℕ) (p2 : Particle), j ≤ b ∧ ps[b]? = some p2
        ∧ e = connectPair sqrt i b p p2 := by
  intro n
  induction n with
  | zero =>
    intro j hn he
    rw [connect_ge sqrt ps i p j (by omega)] at he
    simp at he
  | succ n ih =>
    intro j hn he
    have hj : j < ps.length := by omega
    rw [connect_lt sqrt ps i p j hj] at he
    rcases List.mem_cons.1 he with h1 | h1
    · exact ⟨j, ps.get ⟨j, hj⟩, le_refl _, by simp [hj], h1⟩
    · obtain ⟨b, p2, hb, hp2, hE⟩ := ih (j + 1) (by omega) h1
      exact ⟨b, p2, by omega, hp2, hE⟩

/-- Every `pair` event of the loop from index `i` tests the updated particle
of an index `a ≥ i` against the not yet updated particle of an index `b > a`. -/
theorem mem_drawLoop (sqrt : ℚ → ℚ) (w h : ℚ) (m : Mouse) (e : Event) :
    ∀ (n i : ℕ) (ps : List Particle), ps.length - i = n →
      e ∈ (drawLoop sqrt w h m i ps).2 →
      (∃ (a : ℕ) (pa : Particle), i ≤ a ∧ ps[a]? = some pa
          ∧ e = Event.disc (update sqrt w h m pa).x (update sqrt w h m pa).y
                  (update sqrt w h m pa).radius (update sqrt w h m pa).color)
      ∨ (∃ (a b : ℕ) (pa pb : Particle), i ≤ a ∧ a < b ∧ ps[a]? = some pa
          ∧ ps[b]? = some pb
          ∧ e = connectPair sqrt a b (update sqrt w h m pa) pb) := by
  intro n
  induction n with
  | zero =>
    intro i ps hn he
    rw [drawLoop_ge sqrt w h m i ps (by omega)] at he
    simp at he
  | succ n ih =>
    intro i ps hn he
    have hi : i < ps.length := by omega
    rw [drawLoop_lt sqrt w h m i ps hi] at he
    simp only [List.mem_cons, List.mem_append] at he
    have hget : ps[i]? = some (ps.get ⟨i, hi⟩) := by simp [hi]
    rcases he with h1 | h1 | h1
    · exact Or.inl ⟨i, ps.get ⟨i, hi⟩, le_refl _, hget, h1⟩
    · obtain ⟨b, p2, hb, hp2, hE⟩ := mem_connect sqrt _ i _ e _ (i + 1) rfl h1
      rw [List.getElem?_set_ne (by omega)] at hp2
      exact Or.inr ⟨i, b, ps.get ⟨i, hi⟩, p2, le_refl _, by omega, hget, hp2, hE⟩
    · rcases ih (i + 1) _ (by simp only [List.length_set]; omega) h1 with
        ⟨a, pa, ha, hpa, hE⟩ | ⟨a, b, pa, pb, ha, hab, hpa, hpb, hE⟩
      · rw [List.getElem?_set_ne (by omega)] at hpa
        exact Or.inl ⟨a, pa, by omega, hpa, hE⟩
      · rw [List.getElem?_set_ne (by omega)] at hpa hpb
        exact Or.inr ⟨a, b, pa, pb, by omega, hab, hpa, hpb, hE⟩

/-- The `pair` events of a frame: the first point is the end-of-frame position
of particle `a`, the second the start-of-frame position of particle `b`. -/
theorem mem_draw_pair (sqrt : ℚ → ℚ) (s : ParticleSystem) (i j : ℕ)
    (x1 y1 x2 y2 d : ℚ) (st : Option ℚ)
    (he : Event.pair i j x1 y1 x2 y2 d st ∈ (ParticleSystem.draw sqrt s).2) :
    ∃ (pa pb : Particle), i < j ∧ s.particles[i]? = some pa
      ∧ s.particles[j]? = some pb
      ∧ Event.pair i j x1 y1 x2 y2 d st
          = connectPair sqrt i j (update sqrt s.width s.height s.mouse pa) pb := by
  simp only [ParticleSystem.draw, List.mem_cons] at he
  rcases he with h1 | h1
  · cases h1
  · rcases mem_drawLoop sqrt _ _ _ _ _ 0 s.particles rfl h1 with
      ⟨a, pa, _, _, hE⟩ | ⟨a, b, pa, pb, _, hab, hpa, hpb, hE⟩
    · cases hE
    · have hE2 := hE
      simp only [connectPair, Event.pair.injEq] at hE2
      obtain ⟨hia, hjb, _⟩ := hE2
      subst hia
      subst hjb
      exact ⟨pa, pb, hab, hpa, hpb, hE⟩

/-- Converse of `mem_connect`: every later entry of the array is tested. -/
theorem connectPair_mem_connect (sqrt : ℚ → ℚ) (ps : List Particle) (i : ℕ)
    (p : Particle) (b : ℕ) (p2 : Particle) (hp2 : ps[b]? = some p2) :
    ∀ (n j : ℕ), ps.length - j = n → j ≤ b →
      connectPair sqrt i b p p2 ∈ connect sqrt ps i p j := by
  have hb : b < ps.length := (List.getElem?_eq_some.1 hp2).1
  intro n
  induction n with
  | zero =>
    intro j hn hjb
    omega
  | succ n ih =>
    intro j hn hjb
    have hj : j < ps.length := by omega
    rw [connect_lt sqrt ps i p j hj]
    by_cases hjb2 : j = b
    · subst hjb2
      have : ps.get ⟨j, hj⟩ = p2 := by
        have := (List.getElem?_eq_some.1 hp2).2
        simpa using this
      rw [this]
      exact List.mem_cons_self _ _
    · exact List.mem_cons_of_mem _ (ih (j + 1) (by omega) (by omega))

/-- Converse of `mem_drawLoop` for the `pair` events. -/
theorem connectPair_mem_drawLoop (sqrt : ℚ → ℚ) (w h : ℚ) (m : Mouse)
    (a b : ℕ) (hab : a < b) :
    ∀ (n i : ℕ) (ps : List Particle) (pa pb : Particle), ps.length - i = n →
      i ≤ a → ps[a]? = some pa → ps[b]? = some pb →
      connectPair sqrt a b (update sqrt w h m pa) pb
        ∈ (drawLoop sqrt w h m i ps).2 := by
  intro n
  induction n with
  | zero =>
    intro i ps pa pb hn hia hpa hpb
    have : a < ps.length := (List.getElem?_eq_some.1 hpa).1
    omega
  | succ n ih =>
    intro i ps pa pb hn hia hpa hpb
    have hi : i < ps.length := by omega
    rw [drawLoop_lt sqrt w h m i ps hi]
    simp only [List.mem_cons, List.mem_append]
    right
    by_cases hia2 : i = a
    · subst hia2
      left
      have hget : ps.get ⟨i, hi⟩ = pa := by
        have := (List.getElem?_eq_some.1 hpa).2
        simpa using this
      rw [hget]
      apply connectPair_mem_connect sqrt _ i _ b pb _ _ (i + 1) rfl (by omega)
      rw [List.getElem?_set_ne (by omega)]
      exact hpb
    · right
      apply ih (i + 1) _ pa pb (by simp only [List.length_set]; omega) (by omega)
      · rw [List.getElem?_set_ne (by omega)]
        exact hpa
      · rw [List.getElem?_set_ne (by omega)]
        exact hpb

/-- Every pair `i < j` of particles of the field is tested in a frame. -/
theorem connectPair_mem_draw (sqrt : ℚ → ℚ) (s : ParticleSystem) (i j : ℕ)
    (pa pb : Particle) (hij : i < j) (hpa : s.particles[i]? = some pa)
    (hpb : s.particles[j]? = some pb) :
    connectPair sqrt i j (update sqrt s.width s.height s.mouse pa) pb
      ∈ (ParticleSystem.draw sqrt s).2 := by
  simp only [ParticleSystem.draw]
  exact List.mem_cons_of_mem _
    (connectPair_mem_drawLoop sqrt _ _ _ i j hij _ 0 s.particles pa pb rfl
      (Nat.zero_le _) hpa hpb)

theorem testedPairs_append (es fs : List Event) :
    testedPairs (es ++ fs) = testedPairs es ++ testedPairs fs := by
  induction es with
  | nil => rfl
  | cons e es ih => cases e <;> simp [testedPairs, ih]

theorem testedPairs_connectPair (sqrt : ℚ → ℚ) (i j : ℕ) (p p2 : Particle)
    (es : List Event) :
    testedPairs (connectPair sqrt i j p p2 :: es) = (i, j) :: testedPairs es := by
  simp [connectPair, testedPairs]

theorem count_connect (sqrt : ℚ → ℚ) (ps : List Particle) (i : ℕ)
    (p : Particle) (a b : ℕ) :
    ∀ (n j : ℕ), ps.length - j = n →
      (testedPairs (connect sqrt ps i p j)).count (a, b)
        = if a = i ∧ j ≤ b ∧ b < ps.length then 1 else 0 := by
  intro n
  induction n with
  | zero =>
    intro j hn
    rw [connect_ge sqrt ps i p j (by omega)]
    have : ¬ (a = i ∧ j ≤ b ∧ b < ps.length) := by omega
    simp [testedPairs, this]
  | succ n ih =>
    intro j hn
    have hj : j < ps.length := by omega
    rw [connect_lt sqrt ps i p j hj, testedPairs_connectPair, List.count_cons,
      ih (j + 1) (by omega)]
    by_cases hai : a = i
    · by_cases hbj : b = j
      · subst hai
        subst hbj
        have : ¬ (b + 1 ≤ b) := by omega
        simp [this, hj]
      · have h1 : ¬ ((i, j) = (a, b)) := by
          intro h
          exact hbj (Prod.mk.inj h).2.symm
        have h2 : (a = i ∧ j + 1 ≤ b ∧ b < ps.length)
            ↔ (a = i ∧ j ≤ b ∧ b < ps.length) := by omega
        simp [h1, h2]
    · have h1 : ¬ ((i, j) = (a, b)) := by
        intro h
        exact hai (Prod.mk.inj h).1.symm
      simp [h1, hai]

theorem length_connect (sqrt : ℚ → ℚ) (ps : List Particle) (i : ℕ)
    (p : Particle) :
    ∀ (n j : ℕ), ps.length - j = n →
      (testedPairs (connect sqrt ps i p j)).length = n := by
  intro n
  induction n with
  | zero =>
    intro j hn
    rw [connect_ge sqrt ps i p j (by omega)]
    rfl
  | succ n ih =>
    intro j hn
    have hj : j < ps.length := by omega
    rw [connect_lt sqrt ps i p j hj, testedPairs_connectPair, List.length_cons,
      ih (j + 1) (by omega)]

theorem count_drawLoop (sqrt : ℚ → ℚ) (w h : ℚ) (m : Mouse) (a b : ℕ) :
    ∀ (n i : ℕ) (ps : List Particle), ps.length - i = n →
      (testedPairs (drawLoop sqrt w h m i ps).2).count (a, b)
        = if i ≤ a ∧ a < b ∧ b < ps.length then 1 else 0 := by
  intro n
  induction n with
  | zero =>
    intro i ps hn
    rw [drawLoop_ge sqrt w h m i ps (by omega)]
    have : ¬ (i ≤ a ∧ a < b ∧ b < ps.length) := by omega
    simp [testedPairs, this]
  | succ n ih =>
    intro i ps hn
    have hi : i < ps.length := by omega
    rw [drawLoop_lt sqrt w h m i ps hi]
    simp only [testedPairs, testedPairs_append, List.count_append]
    rw [count_connect sqrt _ i _ a b _ (i + 1) rfl,
      ih (i + 1) _ (by simp only [List.length_set]; omega)]
    simp only [List.length_set]
    by_cases hai : a = i
    · have h1 : (a = i ∧ i + 1 ≤ b ∧ b < ps.length)
          ↔ (i ≤ a ∧ a < b ∧ b < ps.length) := by omega
      have h2 : ¬ (i + 1 ≤ a ∧ a < b ∧ b < ps.length) := by omega
      simp only [h1, h2, if_false, Nat.add_zero]
    · have h1 : ¬ (a = i ∧ i + 1 ≤ b ∧ b < ps.length) := by omega
      have h2 : (i + 1 ≤ a ∧ a < b ∧ b < ps.length)
          ↔ (i ≤ a ∧ a < b ∧ b < ps.length) := by omega
      simp only [h1, h2, if_false, Nat.zero_add]

theorem length_drawLoop (sqrt : ℚ → ℚ) (w h : ℚ) (m : Mouse) :
    ∀ (n i : ℕ) (ps : List Particle), ps.length - i = n →
      2 * (testedPairs (drawLoop sqrt w h m i ps).2).length = n * (n - 1) := by
  intro n
  induction n with
  | zero =>
    intro i ps hn
    rw [drawLoop_ge sqrt w h m i ps (by omega)]
    rfl
  | succ n ih =>
    intro i ps hn
    have hi : i < ps.length := by omega
    rw [drawLoop_lt sqrt w h m i ps hi]
    simp only [testedPairs, testedPairs_append, List.length_append]
    have h1 := length_connect sqrt (ps.set i (update sqrt w h m (ps.get ⟨i, hi⟩))) i
      (update sqrt w h m (ps.get ⟨i, hi⟩)) n (i + 1)
      (by simp only [List.length_set]; omega)
    have h2 := ih (i + 1) (ps.set i (update sqrt w h m (ps.get ⟨i, hi⟩)))
      (by simp only [List.length_set]; omega)
    rw [h1, Nat.mul_add, h2]
    cases n with
    | zero => rfl
    | succ k =>
      simp only [Nat.add_sub_cancel]
      ring

/-! ## The update of one particle: lemmas -/

theorem attract_far (sqrt : ℚ → ℚ) (m : Mouse) (p : Particle)
    (h : 150 ≤ euclid sqrt m.x m.y p.x p.y) : attract sqrt m p = p := by
  unfold euclid at h
  simp [attract, not_lt.mpr h]

theorem attract_near (sqrt : ℚ → ℚ) (m : Mouse) (p : Particle)
    (h : euclid sqrt m.x m.y p.x p.y < 150) :
    attract sqrt m p
      = { p with vx := p.vx + (m.x - p.x) * 0.00005,
                 vy := p.vy + (m.y - p.y) * 0.00005 } := by
  unfold euclid at h
  simp [attract, h]

theorem attract_pos (sqrt : ℚ → ℚ) (m : Mouse) (p : Particle) :
    (attract sqrt m p).x = p.x ∧ (attract sqrt m p).y = p.y
      ∧ (attract sqrt m p).radius = p.radius
      ∧ (attract sqrt m p).color = p.color := by
  unfold attract
  simp only []
  split_ifs <;> simp

theorem update_x (sqrt : ℚ → ℚ) (w h : ℚ) (m : Mouse) (p : Particle) :
    (update sqrt w h m p).x = p.x + (attract sqrt m p).vx := by
  unfold update reflect integrate
  simp only []
  split_ifs <;> simp [(attract_pos sqrt m p).1]

theorem update_y (sqrt : ℚ → ℚ) (w h : ℚ) (m : Mouse) (p : Particle) :
    (update sqrt w h m p).y = p.y + (attract sqrt m p).vy := by
  unfold update reflect integrate
  simp only []
  split_ifs <;> simp [(attract_pos sqrt m p).2.1]

theorem update_vx (sqrt : ℚ → ℚ) (w h : ℚ) (m : Mouse) (p : Particle) :
    (update sqrt w h m p).vx
      = if p.x + (attract sqrt m p).vx < 0 ∨ p.x + (attract sqrt m p).vx > w
        then -(attract sqrt m p).vx else (attract sqrt m p).vx := by
  unfold update reflect integrate
  simp only [(attract_pos sqrt m p).1]
  split_ifs <;> simp

theorem update_vy (sqrt : ℚ → ℚ) (w h : ℚ) (m : Mouse) (p : Particle) :
    (update sqrt w h m p).vy
      = if p.y + (attract sqrt m p).vy < 0 ∨ p.y + (attract sqrt m p).vy > h
        then -(attract sqrt m p).vy else (attract sqrt m p).vy := by
  unfold update reflect integrate
  simp only [(attract_pos sqrt m p).2.1]
  split_ifs <;> simp

theorem update_radius_color (sqrt : ℚ → ℚ) (w h : ℚ) (m : Mouse) (p : Particle) :
    (update sqrt w h m p).radius = p.radius
      ∧ (update sqrt w h m p).color = p.color := by
  unfold update reflect integrate
  simp only []
  split_ifs <;> simp [(attract_pos sqrt m p).2.2.1, (attract_pos sqrt m p).2.2.2]

theorem draw_getElem (sqrt : ℚ → ℚ) (s : ParticleSystem) (k : ℕ) (p : Particle)
    (hp : s.particles[k]? = some p) :
    (ParticleSystem.draw sqrt s).1.particles[k]?
      = some (update sqrt s.width s.height s.mouse p) := by
  rw [draw_particles, List.getElem?_map, hp]
  rfl

theorem rat_sqrt_exact : SqrtExact Rat.sqrt := by
  intro a ha
  rw [Rat.sqrt_eq, abs_of_nonneg ha]

theorem rat_sqrt_nonneg : SqrtNonneg Rat.sqrt := fun a => Rat.sqrt_nonneg a

theorem sqrt_of_sq (sqrt : ℚ → ℚ) (hs : SqrtExact sqrt) (a b : ℚ) (hb : 0 ≤ b)
    (h : a = b * b) : sqrt a = b := by
  rw [h]
  exact hs b hb

/-! ## The claims about the frame step -/

/-- C2. Proximity edges: for every pair examined in a frame, `d` is the
Euclidean distance of the two points read, a line is stroked if and only if
`d < 100`, its opacity is `1 - d / 100`, which is `1` at `d = 0` and lies in
`(0, 1]` when the square root is non-negative; points `(0, 0)` and `(50, 0)`
give opacity `1 / 2` when the square root is exact. -/
theorem C2_proximity_edge (sqrt : ℚ → ℚ) (s : ParticleSystem) (i j : ℕ)
    (x1 y1 x2 y2 d : ℚ) (st : Option ℚ)
    (he : Event.pair i j x1 y1 x2 y2 d st ∈ (ParticleSystem.draw sqrt s).2) :
    d = euclid sqrt x1 y1 x2 y2
    ∧ (st.isSome = true ↔ d < 100)
    ∧ (∀ a, st = some a → a = 1 - d / 100)
    ∧ (d = 0 → st = some 1)
    ∧ (SqrtNonneg sqrt → ∀ a, st = some a → 0 < a ∧ a ≤ 1)
    ∧ (SqrtExact sqrt → x1 = 0 → y1 = 0 → x2 = 50 → y2 = 0 → st = some (1 / 2)) := by
  obtain ⟨pa, pb, _, _, _, hE⟩ := mem_draw_pair sqrt s i j x1 y1 x2 y2 d st he
  simp only [connectPair, Event.pair.injEq, true_and] at hE
  obtain ⟨hx1, hy1, hx2, hy2, hd, hst⟩ := hE
  have hd2 : d = euclid sqrt x1 y1 x2 y2 := by
    rw [hd, hx1, hy1, hx2, hy2]
    rfl
  rw [← hd] at hst
  refine ⟨hd2, ?_, ?_, ?_, ?_, ?_⟩
  · rw [hst]
    by_cases h : d < 100 <;> simp [h]
  · intro a ha
    rw [hst] at ha
    by_cases h : d < 100
    · simp only [h, if_true, Option.some.injEq] at ha
      exact ha.symm
    · simp [h] at ha
  · intro h0
    rw [hst, h0]
    norm_num
  · intro hnn a ha
    rw [hst] at ha
    have h0 : 0 ≤ d := by
      rw [hd2]
      exact hnn _
    by_cases h : d < 100
    · simp only [h, if_true, Option.some.injEq] at ha
      rw [← ha]
      constructor <;> linarith
    · simp [h] at ha
  · intro hs h1 h2 h3 h4
    have h50 : d = 50 := by
      rw [hd2, h1, h2, h3, h4]
      exact sqrt_of_sq sqrt hs _ 50 (by norm_num) (by norm_num)
    rw [hst, h50]
    norm_num

/-- C3. Mouse attraction: the velocity that integrates the position of a
particle in a frame is `v + 0.00005 * (c - p)` when the distance of the cursor
`c` to the particle `p` is below 150 and `v` otherwise; two cursor positions
both at distance at least 150 leave the same particle state; with the cursor
at `(0, 0)` and the particle at `(100, 0)` the velocity used is `vx - 0.005`. -/
theorem C3_mouse_attraction (sqrt : ℚ → ℚ) (s : ParticleSystem) (k : ℕ)
    (p : Particle) (hp : s.particles[k]? = some p) :
    (∃ q : Particle, (ParticleSystem.draw sqrt s).1.particles[k]? = some q
      ∧ q.x = p.x + (if euclid sqrt s.mouse.x s.mouse.y p.x p.y < 150
                      then p.vx + 0.00005 * (s.mouse.x - p.x) else p.vx)
      ∧ q.y = p.y + (if euclid sqrt s.mouse.x s.mouse.y p.x p.y < 150
                      then p.vy + 0.00005 * (s.mouse.y - p.y) else p.vy))
    ∧ (∀ m1 m2 : Mouse, 150 ≤ euclid sqrt m1.x m1.y p.x p.y →
        150 ≤ euclid sqrt m2.x m2.y p.x p.y →
        (ParticleSystem.draw sqrt { s with mouse := m1 }).1.particles[k]?
          = (ParticleSystem.draw sqrt { s with mouse := m2 }).1.particles[k]?)
    ∧ (SqrtExact sqrt → s.mouse = { x := 0, y := 0 } → p.x = 100 → p.y = 0 →
        ∃ q : Particle, (ParticleSystem.draw sqrt s).1.particles[k]? = some q
          ∧ q.x = p.x + (p.vx - 0.005) ∧ q.y = p.y + p.vy) := by
  refine ⟨⟨_, draw_getElem sqrt s k p hp, ?_, ?_⟩, ?_, ?_⟩
  · rw [update_x]
    by_cases h : euclid sqrt s.mouse.x s.mouse.y p.x p.y < 150
    · rw [attract_near sqrt _ p h]
      simp only [h, if_true]
      ring
    · rw [attract_far sqrt _ p (not_lt.mp h)]
      simp [h]
  · rw [update_y]
    by_cases h : euclid sqrt s.mouse.x s.mouse.y p.x p.y < 150
    · rw [attract_near sqrt _ p h]
      simp only [h, if_true]
      ring
    · rw [attract_far sqrt _ p (not_lt.mp h)]
      simp [h]
  · intro m1 m2 h1 h2
    rw [draw_getElem sqrt { s with mouse := m1 } k p hp,
      draw_getElem sqrt { s with mouse := m2 } k p hp]
    simp only [update]
    rw [attract_far sqrt m1 p h1, attract_far sqrt m2 p h2]
  · intro hs hm hx hy
    have hd : euclid sqrt s.mouse.x s.mouse.y p.x p.y = 100 := by
      rw [hm, hx, hy]
      exact sqrt_of_sq sqrt hs _ 100 (by norm_num) (by norm_num [euclid])
    have hlt : euclid sqrt s.mouse.x s.mouse.y p.x p.y < 150 := by
      rw [hd]
      norm_num
    refine ⟨_, draw_getElem sqrt s k p hp, ?_, ?_⟩
    · rw [update_x, attract_near sqrt _ p hlt, hm, hx]
      norm_num
      ring
    · rw [update_y, attract_near sqrt _ p hlt, hm, hy]
      norm_num

/-- C4. Reflect after cross: a frame integrates the position with the velocity
left by the attraction step and does not clamp it; the final `vx` is the
negated velocity when the new `x` is below 0 or above the canvas width and the
velocity itself otherwise, and likewise for `vy` against the height; with the
cursor out of range a particle at `(W + 1, 50)` with `vx = 0.3` ends with
`vx = -0.3`. -/
theorem C4_reflect_after_cross (sqrt : ℚ → ℚ) (s : ParticleSystem) (k : ℕ)
    (p : Particle) (hp : s.particles[k]? = some p) :
    ∃ q : Particle, (ParticleSystem.draw sqrt s).1.particles[k]? = some q
      ∧ q.x = p.x + (attract sqrt s.mouse p).vx
      ∧ q.y = p.y + (attract sqrt s.mouse p).vy
      ∧ q.vx = (if q.x < 0 ∨ q.x > s.width then -(attract sqrt s.mouse p).vx
                else (attract sqrt s.mouse p).vx)
      ∧ q.vy = (if q.y < 0 ∨ q.y > s.height then -(attract sqrt s.mouse p).vy
                else (attract sqrt s.mouse p).vy)
      ∧ (150 ≤ euclid sqrt s.mouse.x s.mouse.y p.x p.y → p.x = s.width + 1 →
          p.y = 50 → p.vx = 0.3 → q.vx = -0.3) := by
  refine ⟨_, draw_getElem sqrt s k p hp, update_x _ _ _ _ _, update_y _ _ _ _ _,
    ?_, ?_, ?_⟩
  · rw [update_x, update_vx]
  · rw [update_y, update_vy]
  · intro hfar hx _ hvx
    rw [update_vx, attract_far sqrt _ p hfar, hx, hvx]
    have : s.width + 1 + 0.3 > s.width := by linarith
    simp [this]

/-- C6. Field invariant: a frame keeps the number of particles, their order
(entry `k` of the result is the update of entry `k`), and every radius and
colour, and does not touch the canvas size or the cursor; `resize` changes
only the canvas size and `mousemove` only the cursor, both leaving every
particle as it is. -/
theorem C6_field_invariant (sqrt : ℚ → ℚ) (s : ParticleSystem)
    (innerWidth innerHeight : ℕ) (clientX clientY : ℚ) :
    (ParticleSystem.draw sqrt s).1.particles.length = s.particles.length
    ∧ (ParticleSystem.draw sqrt s).1.particles
        = s.particles.map (update sqrt s.width s.height s.mouse)
    ∧ (ParticleSystem.draw sqrt s).1.particles.map (fun p => (p.radius, p.color))
        = s.particles.map (fun p => (p.radius, p.color))
    ∧ (ParticleSystem.draw sqrt s).1.width = s.width
    ∧ (ParticleSystem.draw sqrt s).1.height = s.height
    ∧ (ParticleSystem.draw sqrt s).1.mouse = s.mouse
    ∧ ParticleSystem.resize innerWidth innerHeight s
        = { s with width := (innerWidth : ℚ), height := (innerHeight : ℚ) }
    ∧ (ParticleSystem.resize innerWidth innerHeight s).particles = s.particles
    ∧ (ParticleSystem.resize innerWidth innerHeight s).mouse = s.mouse
    ∧ ParticleSystem.mousemove clientX clientY s
        = { s with mouse := { x := clientX, y := clientY } }
    ∧ (ParticleSystem.mousemove clientX clientY s).particles = s.particles
    ∧ (ParticleSystem.mousemove clientX clientY s).width = s.width
    ∧ (ParticleSystem.mousemove clientX clientY s).height = s.height := by
  refine ⟨?_, draw_particles sqrt s, ?_, rfl, rfl, rfl, rfl, rfl, rfl, rfl, rfl,
    rfl, rfl⟩
  · rw [draw_particles, List.length_map]
  · rw [draw_particles, List.map_map]
    apply List.map_congr_left
    intro p _
    simp only [Function.comp]
    rw [(update_radius_color sqrt _ _ _ p).1, (update_radius_color sqrt _ _ _ p).2]

/-- C8. Pair enumeration: in one frame over `n` particles the proximity test
runs exactly once on every index pair `(i, j)` with `i < j < n` and on no
other pair, `n * (n - 1) / 2` tests in total. -/
theorem C8_pair_enumeration (sqrt : ℚ → ℚ) (s : ParticleSystem) :
    (∀ i j : ℕ, (testedPairs (ParticleSystem.draw sqrt s).2).count (i, j)
        = if i < j ∧ j < s.particles.length then 1 else 0)
    ∧ (testedPairs (ParticleSystem.draw sqrt s).2).length
        = s.particles.length * (s.particles.length - 1) / 2 := by
  constructor
  · intro i j
    simp only [ParticleSystem.draw, testedPairs]
    rw [count_drawLoop sqrt _ _ _ i j _ 0 s.particles rfl]
    simp
  · simp only [ParticleSystem.draw, testedPairs]
    have h := length_drawLoop sqrt s.width s.height s.mouse _ 0 s.particles rfl
    simp only [Nat.sub_zero] at h
    omega

/-! ## Evaluation of the concrete fields -/

theorem update_far (sqrt : ℚ → ℚ) (w h : ℚ) (m : Mouse) (p : Particle)
    (hfar : 150 ≤ euclid sqrt m.x m.y p.x p.y) :
    update sqrt w h m p = reflect w h (integrate p) := by
  unfold update
  rw [attract_far sqrt m p hfar]

theorem far_of_sq (sqrt : ℚ → ℚ) (hs : SqrtExact sqrt) (mx my px py b : ℚ)
    (hb : 150 ≤ b)
    (h : (mx - px) * (mx - px) + (my - py) * (my - py) = b * b) :
    150 ≤ euclid sqrt mx my px py := by
  unfold euclid
  rw [sqrt_of_sq sqrt hs _ b (by linarith) h]
  exact hb

theorem fieldEdge_pair (sqrt : ℚ → ℚ) (hs : SqrtExact sqrt) :
    Event.pair 0 1 0 0 50 0 50 (some (1 / 2))
      ∈ (ParticleSystem.draw sqrt fieldEdge).2 := by
  have hfar : 150 ≤ euclid sqrt fieldEdge.mouse.x fieldEdge.mouse.y
      particleOrigin.x particleOrigin.y :=
    far_of_sq sqrt hs _ _ _ _ 500 (by norm_num)
      (by norm_num [fieldEdge, particleOrigin])
  have h := connectPair_mem_draw sqrt fieldEdge 0 1 particleOrigin particleFifty
    (by decide) rfl rfl
  rw [update_far sqrt fieldEdge.width fieldEdge.height fieldEdge.mouse
    particleOrigin hfar] at h
  have h50 : sqrt 2500 = 50 :=
    sqrt_of_sq sqrt hs _ 50 (by norm_num) (by norm_num)
  have hE : connectPair sqrt 0 1
      (reflect fieldEdge.width fieldEdge.height (integrate particleOrigin))
      particleFifty = Event.pair 0 1 0 0 50 0 50 (some (1 / 2)) := by
    norm_num [connectPair, reflect, integrate, fieldEdge, particleOrigin,
      particleFifty, h50]
  rw [hE] at h
  exact h

theorem fieldLeaving_far (sqrt : ℚ → ℚ) (hs : SqrtExact sqrt) :
    150 ≤ euclid sqrt fieldLeaving.mouse.x fieldLeaving.mouse.y
        particleRest.x particleRest.y
    ∧ 150 ≤ euclid sqrt fieldLeaving.mouse.x fieldLeaving.mouse.y
        particleLeaving.x particleLeaving.y
    ∧ 150 ≤ euclid sqrt fieldEntering.mouse.x fieldEntering.mouse.y
        particleRest.x particleRest.y
    ∧ 150 ≤ euclid sqrt fieldEntering.mouse.x fieldEntering.mouse.y
        particleEntering.x particleEntering.y :=
  ⟨far_of_sq sqrt hs _ _ _ _ 900 (by norm_num)
      (by norm_num [fieldLeaving, particleRest]),
   far_of_sq sqrt hs _ _ _ _ 800.125 (by norm_num)
      (by norm_num [fieldLeaving, particleLeaving]),
   far_of_sq sqrt hs _ _ _ _ 900 (by norm_num)
      (by norm_num [fieldEntering, particleRest]),
   far_of_sq sqrt hs _ _ _ _ 800 (by norm_num)
      (by norm_num [fieldEntering, particleEntering])⟩

theorem fieldLeaving_draw (sqrt : ℚ → ℚ) (hs : SqrtExact sqrt) :
    (ParticleSystem.draw sqrt fieldLeaving).1.particles
      = [particleRest, { particleLeaving with x := 200 }] := by
  rw [draw_particles,
    show fieldLeaving.particles = [particleRest, particleLeaving] from rfl]
  simp only [List.map]
  rw [update_far sqrt fieldLeaving.width fieldLeaving.height fieldLeaving.mouse
      particleRest (fieldLeaving_far sqrt hs).1,
    update_far sqrt fieldLeaving.width fieldLeaving.height fieldLeaving.mouse
      particleLeaving (fieldLeaving_far sqrt hs).2.1]
  norm_num [reflect, integrate, fieldLeaving, particleRest, particleLeaving]

theorem fieldEntering_draw (sqrt : ℚ → ℚ) (hs : SqrtExact sqrt) :
    (ParticleSystem.draw sqrt fieldEntering).1.particles
      = [particleRest, { particleEntering with x := 199.875 }] := by
  rw [draw_particles,
    show fieldEntering.particles = [particleRest, particleEntering] from rfl]
  simp only [List.map]
  rw [update_far sqrt fieldEntering.width fieldEntering.height
      fieldEntering.mouse particleRest (fieldLeaving_far sqrt hs).2.2.1,
    update_far sqrt fieldEntering.width fieldEntering.height
      fieldEntering.mouse particleEntering (fieldLeaving_far sqrt hs).2.2.2]
  norm_num [reflect, integrate, fieldEntering, particleRest, particleEntering]

theorem fieldLeaving_pair (sqrt : ℚ → ℚ) (hs : SqrtExact sqrt) :
    Event.pair 0 1 100 50 199.875 50 99.875 (some 0.00125)
      ∈ (ParticleSystem.draw sqrt fieldLeaving).2 := by
  have h := connectPair_mem_draw sqrt fieldLeaving 0 1 particleRest
    particleLeaving (by decide) rfl rfl
  rw [update_far sqrt fieldLeaving.width fieldLeaving.height fieldLeaving.mouse
    particleRest (fieldLeaving_far sqrt hs).1] at h
  have hd : sqrt ((100 - 199.875) * (100 - 199.875) + (50 - 50) * (50 - 50))
      = 99.875 :=
    sqrt_of_sq sqrt hs _ 99.875 (by norm_num) (by norm_num)
  have hE : connectPair sqrt 0 1
      (reflect fieldLeaving.width fieldLeaving.height (integrate particleRest))
      particleLeaving
      = Event.pair 0 1 100 50 199.875 50 99.875 (some 0.00125) := by
    have hr : reflect fieldLeaving.width fieldLeaving.height
        (integrate particleRest) = particleRest := by
      norm_num [reflect, integrate, fieldLeaving, particleRest]
    rw [hr]
    simp only [connectPair, particleRest, particleLeaving]
    rw [hd]
    norm_num
  rw [hE] at h
  exact h

theorem fieldEntering_pair (sqrt : ℚ → ℚ) (hs : SqrtExact sqrt) :
    Event.pair 0 1 100 50 200 50 100 none
      ∈ (ParticleSystem.draw sqrt fieldEntering).2 := by
  have h := connectPair_mem_draw sqrt fieldEntering 0 1 particleRest
    particleEntering (by decide) rfl rfl
  rw [update_far sqrt fieldEntering.width fieldEntering.height
    fieldEntering.mouse particleRest (fieldLeaving_far sqrt hs).2.2.1] at h
  have hd : sqrt ((100 - 200) * (100 - 200) + (50 - 50) * (50 - 50)) = 100 :=
    sqrt_of_sq sqrt hs _ 100 (by norm_num) (by norm_num)
  have hE : connectPair sqrt 0 1
      (reflect fieldEntering.width fieldEntering.height (integrate particleRest))
      particleEntering = Event.pair 0 1 100 50 200 50 100 none := by
    have hr : reflect fieldEntering.width fieldEntering.height
        (integrate particleRest) = particleRest := by
      norm_num [reflect, integrate, fieldEntering, particleRest]
    rw [hr]
    simp only [connectPair, particleRest, particleEntering]
    rw [hd]
    norm_num
  rw [hE] at h
  exact h

theorem fieldZero_far (sqrt : ℚ → ℚ) (hs : SqrtExact sqrt) :
    150 ≤ euclid sqrt fieldZero.mouse.x fieldZero.mouse.y
        particleZero.x particleZero.y :=
  far_of_sq sqrt hs _ _ _ _ 500 (by norm_num)
    (by norm_num [fieldZero, particleZero])

theorem fieldZero_draw (sqrt : ℚ → ℚ) (hs : SqrtExact sqrt) :
    (ParticleSystem.draw sqrt fieldZero).1.particles
      = [{ x := 0.25, y := 500, vx := 0.25, vy := 0, radius := 1, color := 180 }] := by
  rw [draw_particles, show fieldZero.particles = [particleZero] from rfl]
  simp only [List.map]
  rw [update_far sqrt fieldZero.width fieldZero.height fieldZero.mouse
      particleZero (fieldZero_far sqrt hs)]
  norm_num [reflect, integrate, fieldZero, particleZero]

theorem fieldMouse_exact :
    fieldMouse.mouse = { x := 0, y := 0 } ∧ particleMouse.x = 100
      ∧ particleMouse.y = 0 :=
  ⟨rfl, rfl, rfl⟩

theorem fieldCross_far (sqrt : ℚ → ℚ) (hs : SqrtExact sqrt) :
    150 ≤ euclid sqrt fieldCross.mouse.x fieldCross.mouse.y
        particleCross.x particleCross.y :=
  far_of_sq sqrt hs _ _ _ _ 1001 (by norm_num)
    (by norm_num [fieldCross, particleCross])

/-! ## Evaluations of the claims about the frame step -/

/-- The field of C2 at `fieldEdge`: the pair at `(0, 0)` and `(50, 0)` is
examined, a line is stroked, and its opacity is `1 - 50 / 100`. -/
theorem C2_proximity_edge_witness :
    Event.pair 0 1 0 0 50 0 50 (some (1 / 2))
        ∈ (ParticleSystem.draw Rat.sqrt fieldEdge).2
    ∧ ((some (1 / 2 : ℚ)).isSome = true ↔ (50 : ℚ) < 100)
    ∧ (∀ a : ℚ, some (1 / 2 : ℚ) = some a → a = 1 - 50 / 100)
    ∧ (∀ a : ℚ, some (1 / 2 : ℚ) = some a → 0 < a ∧ a ≤ 1) :=
  ⟨fieldEdge_pair Rat.sqrt rat_sqrt_exact,
   (C2_proximity_edge Rat.sqrt fieldEdge 0 1 0 0 50 0 50 (some (1 / 2))
      (fieldEdge_pair Rat.sqrt rat_sqrt_exact)).2.1,
   (C2_proximity_edge Rat.sqrt fieldEdge 0 1 0 0 50 0 50 (some (1 / 2))
      (fieldEdge_pair Rat.sqrt rat_sqrt_exact)).2.2.1,
   (C2_proximity_edge Rat.sqrt fieldEdge 0 1 0 0 50 0 50 (some (1 / 2))
      (fieldEdge_pair Rat.sqrt rat_sqrt_exact)).2.2.2.2.1 rat_sqrt_nonneg⟩

/-- The scenario of C3 at `fieldMouse`: cursor `(0, 0)`, particle `(100, 0)`;
the position is integrated with `vx - 0.005`. -/
theorem C3_mouse_attraction_witness :
    fieldMouse.particles[0]? = some particleMouse
    ∧ ∃ q : Particle, (ParticleSystem.draw Rat.sqrt fieldMouse).1.particles[0]? = some q
        ∧ q.x = particleMouse.x + (particleMouse.vx - 0.005)
        ∧ q.y = particleMouse.y + particleMouse.vy :=
  ⟨rfl, (C3_mouse_attraction Rat.sqrt fieldMouse 0 particleMouse rfl).2.2
    rat_sqrt_exact fieldMouse_exact.1 fieldMouse_exact.2.1 fieldMouse_exact.2.2⟩

/-- The scenario of C4 at `fieldCross`: a particle at `(1001, 50)` with
`vx = 0.3` on a canvas of width 1000 ends the frame with `vx = -0.3`. -/
theorem C4_reflect_after_cross_witness :
    fieldCross.particles[0]? = some particleCross
    ∧ ∃ q : Particle, (ParticleSystem.draw Rat.sqrt fieldCross).1.particles[0]? = some q
        ∧ q.vx = -0.3 := by
  obtain ⟨q, hq, _, _, _, _, hsc⟩ :=
    C4_reflect_after_cross Rat.sqrt fieldCross 0 particleCross rfl
  refine ⟨rfl, q, hq, hsc (fieldCross_far Rat.sqrt rat_sqrt_exact) ?_ rfl rfl⟩
  norm_num [fieldCross, particleCross]

/-! ## Reflection at the bound -/

/-- C5, as stated, fails at `fieldZero`: the particle sits at `x = 0` exactly
with `vx = 0.25`, and after the frame its `vx` is still `0.25`. -/
theorem C5_counterexample :
    fieldZero.particles[0]? = some particleZero
    ∧ particleZero.x = 0 ∧ particleZero.vx = 0.25
    ∧ (ParticleSystem.draw Rat.sqrt fieldZero).1.particles
        = [{ x := 0.25, y := 500, vx := 0.25, vy := 0, radius := 1, color := 180 }]
    ∧ ¬ (∀ q, (ParticleSystem.draw Rat.sqrt fieldZero).1.particles[0]? = some q →
          q.vx = -particleZero.vx) := by
  refine ⟨rfl, rfl, rfl, fieldZero_draw Rat.sqrt rat_sqrt_exact, ?_⟩
  intro h
  have h2 := h _ (by rw [fieldZero_draw Rat.sqrt rat_sqrt_exact]; rfl)
  norm_num [particleZero] at h2

/-- C5, amended. For a particle whose `x` is exactly 0 or exactly the canvas
width `W` before a frame, with `v` the velocity left by the attraction step
and `x'` the integrated position the frame leaves: `vx` ends as `-v.x` when
`x' < 0` or `x' > W`, and as `v.x` when `0 ≤ x' ≤ W`; the same for `y`
against the height `H`. -/
theorem C5_reflection_at_bound (sqrt : ℚ → ℚ) (s : ParticleSystem) (k : ℕ)
    (p : Particle) (hp : s.particles[k]? = some p) :
    ∃ q : Particle, (ParticleSystem.draw sqrt s).1.particles[k]? = some q
      ∧ ((p.x = 0 ∨ p.x = s.width) → (q.x < 0 ∨ q.x > s.width) →
          q.vx = -(attract sqrt s.mouse p).vx)
      ∧ ((p.x = 0 ∨ p.x = s.width) → 0 ≤ q.x → q.x ≤ s.width →
          q.vx = (attract sqrt s.mouse p).vx)
      ∧ ((p.y = 0 ∨ p.y = s.height) → (q.y < 0 ∨ q.y > s.height) →
          q.vy = -(attract sqrt s.mouse p).vy)
      ∧ ((p.y = 0 ∨ p.y = s.height) → 0 ≤ q.y → q.y ≤ s.height →
          q.vy = (attract sqrt s.mouse p).vy) := by
  refine ⟨_, draw_getElem sqrt s k p hp, ?_, ?_, ?_, ?_⟩
  · intro _ hout
    rw [update_x] at hout
    rw [update_vx, if_pos hout]
  · intro _ h0 hw
    rw [update_x] at h0 hw
    rw [update_vx, if_neg (by
      intro h
      rcases h with h | h <;> linarith)]
  · intro _ hout
    rw [update_y] at hout
    rw [update_vy, if_pos hout]
  · intro _ h0 hh
    rw [update_y] at h0 hh
    rw [update_vy, if_neg (by
      intro h
      rcases h with h | h <;> linarith)]

/-- The amended C5 at `fieldZero`: the particle at `x = 0` is integrated to
`x = 0.25`, inside the canvas, and keeps its `vx`. -/
theorem C5_reflection_at_bound_witness :
    fieldZero.particles[0]? = some particleZero
    ∧ (particleZero.x = 0 ∨ particleZero.x = fieldZero.width)
    ∧ ∃ q : Particle, (ParticleSystem.draw Rat.sqrt fieldZero).1.particles[0]? = some q
        ∧ 0 ≤ q.x ∧ q.x ≤ fieldZero.width
        ∧ q.vx = (attract Rat.sqrt fieldZero.mouse particleZero).vx := by
  obtain ⟨q, hq, _, h2, _⟩ :=
    C5_reflection_at_bound Rat.sqrt fieldZero 0 particleZero rfl
  have hq2 := hq
  rw [fieldZero_draw Rat.sqrt rat_sqrt_exact] at hq2
  simp only [List.getElem?_cons_zero, Option.some.injEq] at hq2
  have h0 : 0 ≤ q.x := by
    rw [← hq2]
    norm_num
  have hw : q.x ≤ fieldZero.width := by
    rw [← hq2]
    norm_num [fieldZero]
  exact ⟨rfl, Or.inl rfl, q, hq, h0, hw, h2 (Or.inl rfl) h0 hw⟩

/-! ## Positions used by the edge test -/

/-- C9. Every pair examined in a frame, with `i < j`, is tested on the
end-of-frame position of particle `i` and the start-of-frame position of
particle `j`.  With an exact square root: in `fieldLeaving` the pair `(0, 1)`
gets a line although its end-of-frame distance is at least 100, and in
`fieldEntering` it gets none although its end-of-frame distance is below
100. -/
theorem C9_edge_positions (sqrt : ℚ → ℚ) (hs : SqrtExact sqrt) :
    (∀ (s : ParticleSystem) (i j : ℕ) (x1 y1 x2 y2 d : ℚ) (st : Option ℚ),
      Event.pair i j x1 y1 x2 y2 d st ∈ (ParticleSystem.draw sqrt s).2 →
      ∃ qi pj : Particle, i < j
        ∧ (ParticleSystem.draw sqrt s).1.particles[i]? = some qi
        ∧ s.particles[j]? = some pj
        ∧ x1 = qi.x ∧ y1 = qi.y ∧ x2 = pj.x ∧ y2 = pj.y
        ∧ d = euclid sqrt qi.x qi.y pj.x pj.y
        ∧ st = if d < 100 then some (1 - d / 100) else none)
    ∧ (∃ qi qj : Particle,
        (ParticleSystem.draw sqrt fieldLeaving).1.particles[0]? = some qi
        ∧ (ParticleSystem.draw sqrt fieldLeaving).1.particles[1]? = some qj
        ∧ 100 ≤ euclid sqrt qi.x qi.y qj.x qj.y
        ∧ Event.pair 0 1 100 50 199.875 50 99.875 (some 0.00125)
            ∈ (ParticleSystem.draw sqrt fieldLeaving).2)
    ∧ (∃ qi qj : Particle,
        (ParticleSystem.draw sqrt fieldEntering).1.particles[0]? = some qi
        ∧ (ParticleSystem.draw sqrt fieldEntering).1.particles[1]? = some qj
        ∧ euclid sqrt qi.x qi.y qj.x qj.y < 100
        ∧ Event.pair 0 1 100 50 200 50 100 none
            ∈ (ParticleSystem.draw sqrt fieldEntering).2) := by
  refine ⟨?_, ?_, ?_⟩
  · intro s i j x1 y1 x2 y2 d st he
    obtain ⟨pa, pb, hij, hpa, hpb, hE⟩ := mem_draw_pair sqrt s i j x1 y1 x2 y2 d st he
    simp only [connectPair, Event.pair.injEq, true_and] at hE
    obtain ⟨hx1, hy1, hx2, hy2, hd, hst⟩ := hE
    refine ⟨_, pb, hij, draw_getElem sqrt s i pa hpa, hpb, hx1, hy1, hx2, hy2, ?_, ?_⟩
    · rw [hd]
      rfl
    · rw [hst, hd]
  · refine ⟨particleRest, { particleLeaving with x := 200 }, ?_, ?_, ?_,
      fieldLeaving_pair sqrt hs⟩
    · rw [fieldLeaving_draw sqrt hs]
      rfl
    · rw [fieldLeaving_draw sqrt hs]
      rfl
    · have h : euclid sqrt particleRest.x particleRest.y 200 particleLeaving.y
          = 100 := by
        unfold euclid
        exact sqrt_of_sq sqrt hs _ 100 (by norm_num)
          (by norm_num [particleRest, particleLeaving])
      exact le_of_eq h.symm
  · refine ⟨particleRest, { particleEntering with x := 199.875 }, ?_, ?_, ?_,
      fieldEntering_pair sqrt hs⟩
    · rw [fieldEntering_draw sqrt hs]
      rfl
    · rw [fieldEntering_draw sqrt hs]
      rfl
    · have h : euclid sqrt particleRest.x particleRest.y 199.875 particleEntering.y
          = 99.875 := by
        unfold euclid
        exact sqrt_of_sq sqrt hs _ 99.875 (by norm_num)
          (by norm_num [particleRest, particleEntering])
      show euclid sqrt particleRest.x particleRest.y 199.875 particleEntering.y < 100
      rw [h]
      norm_num

/-- The examples of C9 with `Rat.sqrt`, which is exact on squares. -/
theorem C9_edge_positions_witness :
    SqrtExact Rat.sqrt
    ∧ (∃ qi qj : Particle,
        (ParticleSystem.draw Rat.sqrt fieldLeaving).1.particles[0]? = some qi
        ∧ (ParticleSystem.draw Rat.sqrt fieldLeaving).1.particles[1]? = some qj
        ∧ 100 ≤ euclid Rat.sqrt qi.x qi.y qj.x qj.y
        ∧ Event.pair 0 1 100 50 199.875 50 99.875 (some 0.00125)
            ∈ (ParticleSystem.draw Rat.sqrt fieldLeaving).2) :=
  ⟨rat_sqrt_exact, (C9_edge_positions Rat.sqrt rat_sqrt_exact).2.1⟩

/-! ## `TypeWriter`: lemmas -/

theorem type_typing (texts : List (List Char)) (speed : ℚ) (i : ℕ) (c : ℕ)
    (content cur : List Char) (hcur : texts[i]? = some cur) :
    TypeWriter.type ⟨texts, speed, i, (c : ℤ), false, content⟩
      = if c + 1 = cur.length then
          some (⟨texts, speed, i, ((c + 1 : ℕ) : ℤ), true, cur.take (c + 1)⟩, 2000)
        else
          some (⟨texts, speed, i, ((c + 1 : ℕ) : ℤ), false, cur.take (c + 1)⟩, speed) := by
  simp only [TypeWriter.type, hcur]
  by_cases h : c + 1 = cur.length
  · have h2 : (c : ℤ) + 1 = (cur.length : ℤ) := by exact_mod_cast h
    simp [h, h2, substring]
  · have h2 : ¬ ((c : ℤ) + 1 = (cur.length : ℤ)) := fun h3 => h (by exact_mod_cast h3)
    simp [h, h2, substring]

theorem type_deleting (texts : List (List Char)) (speed : ℚ) (i : ℕ) (c : ℕ)
    (content cur : List Char) (hcur : texts[i]? = some cur) :
    TypeWriter.type ⟨texts, speed, i, ((c + 1 : ℕ) : ℤ), true, content⟩
      = if c = 0 then
          some (⟨texts, speed, (i + 1) % texts.length, 0, false, cur.take 0⟩, 500)
        else some (⟨texts, speed, i, (c : ℤ), true, cur.take c⟩, speed / 2) := by
  simp only [TypeWriter.type, hcur]
  by_cases h : c = 0
  · simp [h, substring]
  · simp [h, substring]

theorem run_succ (n : ℕ) (t : TypeWriter) :
    TypeWriter.run (n + 1) t
      = (TypeWriter.run n t).bind fun u => (TypeWriter.type u).map Prod.fst := rfl

theorem run_add (m : ℕ) (t : TypeWriter) :
    ∀ k : ℕ, TypeWriter.run (m + k) t = (TypeWriter.run m t).bind (TypeWriter.run k) := by
  intro k
  induction k with
  | zero =>
    cases h : TypeWriter.run m t <;> simp [h, TypeWriter.run]
  | succ k ih =>
    rw [← Nat.add_assoc, run_succ, ih]
    cases h : TypeWriter.run m t with
    | none => rfl
    | some u => simp [run_succ]

/-- A valid state over non-empty phrases steps to a valid state that shows a
prefix of its phrase, and the phrase index moves on only when the last
character has been deleted. -/
theorem valid_type (texts : List (List Char)) (hw : ∀ w ∈ texts, w ≠ [])
    (t : TypeWriter) (hv : TypeWriter.Valid texts t) :
    ∃ (u : TypeWriter) (delay : ℚ), TypeWriter.type t = some (u, delay)
      ∧ TypeWriter.Valid texts u
      ∧ (∃ cur, texts[u.textIndex]? = some cur
          ∧ u.textContent = cur.take u.charIndex.toNat)
      ∧ u.textIndex = (if t.isDeleting = true ∧ t.charIndex = 1
          then (t.textIndex + 1) % texts.length else t.textIndex) := by
  rcases t with ⟨tx, sp, i, c, del, content⟩
  obtain ⟨htx, cur, hcur, h0, hle, hdel, htyp⟩ := hv
  simp only at htx hcur h0 hle hdel htyp
  subst htx
  obtain ⟨n, rfl⟩ := Int.eq_ofNat_of_zero_le h0
  have hi : i < tx.length := (List.getElem?_eq_some.1 hcur).1
  cases del with
  | false =>
    have hlt : n < cur.length := by
      have := htyp rfl
      exact_mod_cast this
    rw [type_typing tx sp i n content cur hcur]
    by_cases h : n + 1 = cur.length
    · rw [if_pos h]
      refine ⟨_, _, rfl, ⟨rfl, cur, hcur, ?_, ?_, ?_, ?_⟩, ⟨cur, hcur, ?_⟩, ?_⟩
      · simp only; omega
      · simp only; exact_mod_cast h.le
      · intro _; simp only; omega
      · intro hf; simp at hf
      · simp
      · simp
    · rw [if_neg h]
      refine ⟨_, _, rfl, ⟨rfl, cur, hcur, ?_, ?_, ?_, ?_⟩, ⟨cur, hcur, ?_⟩, ?_⟩
      · simp only; omega
      · simp only; exact_mod_cast (by omega : n + 1 ≤ cur.length)
      · intro hf; simp at hf
      · intro _; simp only; exact_mod_cast (by omega : n + 1 < cur.length)
      · simp
      · simp
  | true =>
    have h1 : 1 ≤ n := by
      have := hdel rfl
      exact_mod_cast this
    obtain ⟨m, rfl⟩ : ∃ m, n = m + 1 := ⟨n - 1, by omega⟩
    have hle2 : m + 1 ≤ cur.length := by exact_mod_cast hle
    rw [type_deleting tx sp i m content cur hcur]
    by_cases h : m = 0
    · rw [if_pos h]
      have hpos : 0 < tx.length := by omega
      have hj : (i + 1) % tx.length < tx.length := Nat.mod_lt _ hpos
      have hnext : tx[(i + 1) % tx.length]? = some (tx.get ⟨_, hj⟩) := by simp [hj]
      have hmem : tx.get ⟨_, hj⟩ ∈ tx := List.get_mem _ _ _
      have hne : 0 < (tx.get ⟨_, hj⟩).length := List.length_pos.2 (hw _ hmem)
      refine ⟨_, _, rfl, ⟨rfl, _, hnext, ?_, ?_, ?_, ?_⟩, ⟨_, hnext, ?_⟩, ?_⟩
      · simp
      · simp
      · intro hf; simp at hf
      · intro _; simp only; exact_mod_cast hne
      · simp
      · simp [h]
    · rw [if_neg h]
      refine ⟨_, _, rfl, ⟨rfl, cur, hcur, ?_, ?_, ?_, ?_⟩, ⟨cur, hcur, ?_⟩, ?_⟩
      · simp
      · simp only; exact_mod_cast (by omega : m ≤ cur.length)
      · intro _; simp only; exact_mod_cast (by omega : 1 ≤ m)
      · intro hf; simp at hf
      · simp
      · simp [h]

theorem initial_valid (texts : List (List Char)) (speed : ℚ) (content : List Char)
    (hne : texts ≠ []) (hw : ∀ w ∈ texts, w ≠ []) :
    TypeWriter.Valid texts (TypeWriter.initial texts speed content) := by
  cases texts with
  | nil => exact absurd rfl hne
  | cons w ws =>
    refine ⟨rfl, w, ?_, le_refl _, ?_, ?_, ?_⟩
    · simp [TypeWriter.initial]
    · simp [TypeWriter.initial]
    · intro hf; simp [TypeWriter.initial] at hf
    · intro _
      have : 0 < w.length := List.length_pos.2 (hw w (List.mem_cons_self _ _))
      simp only [TypeWriter.initial]
      exact_mod_cast this

/-- Every number of steps from the initial state is defined and ends in a
valid state, which from the first step on shows a prefix of its phrase. -/
theorem run_valid (texts : List (List Char)) (speed : ℚ) (content : List Char)
    (hne : texts ≠ []) (hw : ∀ w ∈ texts, w ≠ []) :
    ∀ n : ℕ, ∃ t, TypeWriter.run n (TypeWriter.initial texts speed content) = some t
      ∧ TypeWriter.Valid texts t
      ∧ (0 < n → ∃ cur, texts[t.textIndex]? = some cur
          ∧ t.textContent = cur.take t.charIndex.toNat) := by
  intro n
  induction n with
  | zero =>
    exact ⟨_, rfl, initial_valid texts speed content hne hw, fun h => absurd h (by omega)⟩
  | succ n ih =>
    obtain ⟨t, ht, hv, _⟩ := ih
    obtain ⟨u, d, hu, hvu, hshow, _⟩ := valid_type texts hw t hv
    refine ⟨u, ?_, hvu, fun _ => hshow⟩
    rw [run_succ, ht]
    simp [hu]

/-- Typing phase: `k` steps from the start of a phrase of more than `k`
characters show its first `k` characters. -/
theorem run_typing (texts : List (List Char)) (speed : ℚ) (i : ℕ)
    (content cur : List Char) (hcur : texts[i]? = some cur) :
    ∀ k : ℕ, k < cur.length →
      ∃ ct, TypeWriter.run k ⟨texts, speed, i, 0, false, content⟩
          = some ⟨texts, speed, i, (k : ℤ), false, ct⟩
        ∧ (0 < k → ct = cur.take k) := by
  intro k
  induction k with
  | zero =>
    intro _
    exact ⟨content, rfl, fun h => absurd h (by omega)⟩
  | succ k ih =>
    intro hk
    obtain ⟨ct, hrun, _⟩ := ih (by omega)
    refine ⟨cur.take (k + 1), ?_, fun _ => rfl⟩
    rw [run_succ, hrun, Option.some_bind, type_typing texts speed i k ct cur hcur,
      if_neg (by omega)]
    rfl

/-- The step that types the last character switches to deleting. -/
theorem run_full (texts : List (List Char)) (speed : ℚ) (i : ℕ)
    (content cur : List Char) (hcur : texts[i]? = some cur)
    (hpos : 0 < cur.length) :
    TypeWriter.run cur.length ⟨texts, speed, i, 0, false, content⟩
      = some ⟨texts, speed, i, (cur.length : ℤ), true, cur.take cur.length⟩ := by
  obtain ⟨k, hk⟩ : ∃ k, cur.length = k + 1 := ⟨cur.length - 1, by omega⟩
  obtain ⟨ct, hrun, _⟩ := run_typing texts speed i content cur hcur k (by omega)
  rw [hk, run_succ, hrun, Option.some_bind, type_typing texts speed i k ct cur hcur,
    if_pos hk.symm]
  rfl

/-- Deleting phase: `k` further steps show all but the last `k` characters. -/
theorem run_deleting (texts : List (List Char)) (speed : ℚ) (i : ℕ)
    (content cur : List Char) (hcur : texts[i]? = some cur) :
    ∀ k : ℕ, k < cur.length →
      TypeWriter.run (cur.length + k) ⟨texts, speed, i, 0, false, content⟩
        = some ⟨texts, speed, i, ((cur.length - k : ℕ) : ℤ), true,
            cur.take (cur.length - k)⟩ := by
  intro k
  induction k with
  | zero =>
    intro hk
    exact run_full texts speed i content cur hcur hk
  | succ k ih =>
    intro hk
    have e : cur.length - k = (cur.length - (k + 1)) + 1 := by omega
    rw [← Nat.add_assoc, run_succ, ih (by omega), Option.some_bind, e,
      type_deleting texts speed i (cur.length - (k + 1)) _ cur hcur,
      if_neg (by omega)]
    rfl

/-- The step that deletes the last character moves on to the next phrase. -/
theorem run_next (texts : List (List Char)) (speed : ℚ) (i : ℕ)
    (content cur : List Char) (hcur : texts[i]? = some cur)
    (hpos : 0 < cur.length) :
    TypeWriter.run (2 * cur.length) ⟨texts, speed, i, 0, false, content⟩
      = some ⟨texts, speed, (i + 1) % texts.length, 0, false, []⟩ := by
  have e : 2 * cur.length = (cur.length + (cur.length - 1)) + 1 := by omega
  have e1 : cur.length - (cur.length - 1) = 0 + 1 := by omega
  rw [e, run_succ, run_deleting texts speed i content cur hcur _ (by omega),
    Option.some_bind, e1, type_deleting texts speed i 0 _ cur hcur, if_pos rfl]
  rfl

theorem heroTexts_nonempty :
    heroTexts ≠ [] ∧ ∀ w ∈ heroTexts, w ≠ [] := by
  constructor
  · simp [heroTexts]
  · intro w hmem
    simp only [heroTexts, List.mem_cons, List.mem_singleton, List.not_mem_nil,
      or_false] at hmem
    rcases hmem with h | h | h | h <;> rw [h] <;> decide

/-! ## The claim about the type writer -/

/-- C10. For non-empty phrases, every number `n` of `type()` steps from the
initial state is defined and reaches a state with `textIndex` in range and
`0 ≤ charIndex ≤` the length of the current phrase, showing (from the first
step on) the first `charIndex` characters of that phrase.  A step changes
`textIndex` only from a deleting state with one character left, to
`(textIndex + 1) % texts.length`.  From the start of a phrase of length `L`
(`charIndex = 0`), `textIndex` stays for `2 L - 1` steps, the phrase is typed
in the first `L` steps and deleted in the next `L`, and step `2 L` starts the
next phrase. -/
theorem C10_typewriter_states (texts : List (List Char)) (speed : ℚ)
    (content : List Char) (hne : texts ≠ []) (hw : ∀ w ∈ texts, w ≠ [])
    (n : ℕ) :
    ∃ (t : TypeWriter) (cur : List Char),
      TypeWriter.run n (TypeWriter.initial texts speed content) = some t
      ∧ t.textIndex < texts.length ∧ texts[t.textIndex]? = some cur
      ∧ 0 ≤ t.charIndex ∧ t.charIndex ≤ (cur.length : ℤ)
      ∧ (0 < n → t.textContent = cur.take t.charIndex.toNat)
      ∧ (∃ (u : TypeWriter) (delay : ℚ), TypeWriter.type t = some (u, delay)
          ∧ u.textIndex = (if t.isDeleting = true ∧ t.charIndex = 1
              then (t.textIndex + 1) % texts.length else t.textIndex))
      ∧ (t.charIndex = 0 →
          (∀ k : ℕ, k ≤ cur.length → ∃ u : TypeWriter,
              TypeWriter.run (n + k) (TypeWriter.initial texts speed content) = some u
              ∧ u.textIndex = t.textIndex
              ∧ (0 < k → u.textContent = cur.take k))
          ∧ (∀ k : ℕ, k < cur.length → ∃ u : TypeWriter,
              TypeWriter.run (n + (cur.length + k))
                  (TypeWriter.initial texts speed content) = some u
              ∧ u.textIndex = t.textIndex ∧ u.isDeleting = true
              ∧ u.textContent = cur.take (cur.length - k))
          ∧ (∃ u : TypeWriter,
              TypeWriter.run (n + 2 * cur.length)
                  (TypeWriter.initial texts speed content) = some u
              ∧ u.textIndex = (t.textIndex + 1) % texts.length
              ∧ u.charIndex = 0 ∧ u.isDeleting = false ∧ u.textContent = [])) := by
  obtain ⟨t, hrun, hv, hshow⟩ := run_valid texts speed content hne hw n
  obtain ⟨u, d, hu, _, _, hidx⟩ := valid_type texts hw t hv
  obtain ⟨htx, cur, hcur, h0, hle, hdel, htyp⟩ := hv
  have hi : t.textIndex < texts.length := (List.getElem?_eq_some.1 hcur).1
  refine ⟨t, cur, hrun, hi, hcur, h0, hle, ?_, ⟨u, d, hu, hidx⟩, ?_⟩
  · intro hn
    obtain ⟨cur2, hcur2, hs⟩ := hshow hn
    rw [hcur] at hcur2
    cases hcur2
    exact hs
  · intro hc0
    rcases t with ⟨tx, sp, i, c, del, ct⟩
    simp only at htx hcur h0 hle hdel htyp hc0 hi
    subst htx
    subst hc0
    have hdf : del = false := by
      cases del with
      | false => rfl
      | true =>
        have := hdel rfl
        omega
    subst hdf
    have hpos : 0 < cur.length := by
      have := htyp rfl
      exact_mod_cast this
    have hadd : ∀ k : ℕ,
        TypeWriter.run (n + k) (TypeWriter.initial tx speed content)
          = TypeWriter.run k ⟨tx, sp, i, 0, false, ct⟩ := by
      intro k
      rw [run_add, hrun]
      rfl
    refine ⟨?_, ?_, ?_⟩
    · intro k hk
      rw [hadd]
      by_cases hkL : k < cur.length
      · obtain ⟨ct2, h1, h2⟩ := run_typing tx sp i ct cur hcur k hkL
        exact ⟨_, h1, rfl, h2⟩
      · have hkeq : k = cur.length := by omega
        rw [hkeq]
        exact ⟨_, run_full tx sp i ct cur hcur hpos, rfl, fun _ => rfl⟩
    · intro k hk
      rw [hadd]
      exact ⟨_, run_deleting tx sp i ct cur hcur k hk, rfl, rfl, rfl⟩
    · rw [hadd]
      exact ⟨_, run_next tx sp i ct cur hcur hpos, rfl, rfl, rfl, rfl⟩

/-- C10 on the phrases of the hero section, after five steps. -/
theorem C10_typewriter_states_witness :
    heroTexts ≠ [] ∧ (∀ w ∈ heroTexts, w ≠ [])
    ∧ ∃ (t : TypeWriter) (cur : List Char),
        TypeWriter.run 5 (TypeWriter.initial heroTexts 100 []) = some t
        ∧ t.textIndex < heroTexts.length ∧ heroTexts[t.textIndex]? = some cur
        ∧ 0 ≤ t.charIndex ∧ t.charIndex ≤ (cur.length : ℤ) := by
  obtain ⟨t, cur, h1, h2, h3, h4, h5, _⟩ :=
    C10_typewriter_states heroTexts 100 [] heroTexts_nonempty.1
      heroTexts_nonempty.2 5
  exact ⟨heroTexts_nonempty.1, heroTexts_nonempty.2, t, cur, h1, h2, h3, h4, h5⟩

/-! ## Missing page elements -/

/-- C7, evaluated. Without `#particles` the constructor of `ParticleSystem`
raises a `TypeError` at line 9 and the listener constructs nothing; without
`.nav` every component is constructed but each run of the scroll listener of
`NavScroll` raises a `TypeError`; without `#contactForm` every component is
constructed and no `submit` listener exists, as the check of line 271
intends. -/
theorem C7_missing_elements :
    domContentLoaded pageNoCanvas = ([], some (JsError.typeError 9))
    ∧ (domContentLoaded pageNoNav).2 = none
    ∧ (∀ y : ℚ, NavScroll.onScroll pageNoNav y
        = Except.error (JsError.typeError (if y > 100 then 351 else 354)))
    ∧ domContentLoaded pageNoForm
        = ([Component.particleSystem, Component.cursor,
            Component.scrollAnimations, Component.tiltEffect, Component.parallax,
            Component.smoothScroll, Component.formHandler, Component.rippleEffect,
            Component.navScroll, Component.typeWriter], none)
    ∧ FormHandler.onSubmit pageNoForm = none := by
  refine ⟨by decide, by decide, ?_, by decide, rfl⟩
  intro y
  simp [NavScroll.onScroll, pageNoNav, pageFull]

end PersonalWeb
